import Mathlib

/-!
Verification of the KLI-LEARNING-LAB record normalization and merge/dedup
pipeline (src/app.py, src/query_normalizer.py, src/KCI_collector.py,
src/RISS_collector.py).

The Python code works on untyped values produced by `xml.etree` trees that
`_xml_to_dict` converts into nested dicts/lists/strings.  We embed those
values as the inductive type `PyVal` below: a value is a string, `None`, an
insertion-ordered dict (association list, as Python dicts preserve insertion
order), or a list.  Fallible Python operations (attribute errors on `.get`,
`IndexError` on indexing) are embedded as `Option`-returning functions where
the claims depend on them.
-/

/-- Embedding of the Python values flowing through the collectors:
strings, `None`, insertion-ordered dicts and lists. -/
inductive PyVal where
  | str : String → PyVal
  | none : PyVal
  | dict : List (String × PyVal) → PyVal
  | list : List PyVal → PyVal

/-- Python whitespace as recognized by `str.strip()` (space, tab, newline,
carriage return, vertical tab, form feed). -/
def isPyWs (c : Char) : Bool :=
  c == ' ' || c == '\t' || c == '\n' || c == '\r' || c == '\x0b' || c == '\x0c'

/-- Python `str.strip()`: remove leading and trailing whitespace.
(Defined structurally on the character list so that the kernel can
evaluate it; the library trim function is definitionally opaque to
`decide`.) -/
def pyStrip (s : String) : String :=
  String.mk (((s.toList.dropWhile isPyWs).reverse.dropWhile isPyWs).reverse)

/-- A single-quote character, used by the Python `str()` rendering of
containers. -/
def pyQuoteMark : String := String.singleton (Char.ofNat 39)

/-- Surround a string with single quotes, as Python `repr` does for strings
(escaping of quotes inside the string is not modelled; no claim evaluates
it on strings containing quotes). -/
def pyQuote (s : String) : String := pyQuoteMark ++ s ++ pyQuoteMark

mutual

/-- Python `repr` of an embedded value (strings are quoted; dicts render as
`\x7b'k': repr v, ...\x7d`, lists as `[repr v, ...]`). -/
def pyRepr : PyVal → String
  | PyVal.str s => pyQuote s
  | PyVal.none => "None"
  | PyVal.dict d => "\x7b" ++ String.intercalate ", " (pyReprEntries d) ++ "\x7d"
  | PyVal.list l => "[" ++ String.intercalate ", " (pyReprList l) ++ "]"

/-- `repr` of each dict entry, in insertion order. -/
def pyReprEntries : List (String × PyVal) → List String
  | [] => []
  | (k, v) :: rest => (pyQuote k ++ ": " ++ pyRepr v) :: pyReprEntries rest

/-- `repr` of each list element, in order. -/
def pyReprList : List PyVal → List String
  | [] => []
  | v :: rest => pyRepr v :: pyReprList rest

end

/-- Python `str()` of an embedded value: a string renders as itself, other
values as their `repr`. -/
def pyStr : PyVal → String
  | PyVal.str s => s
  | v => pyRepr v

/-- Python truthiness of an embedded value (`if data:`): empty string,
`None`, empty dict and empty list are falsy. -/
def pyTruthy : PyVal → Bool
  | PyVal.str s => s ≠ ""
  | PyVal.none => false
  | PyVal.dict d => !d.isEmpty
  | PyVal.list l => !l.isEmpty

/-- Python `data.get(key, dflt)`: `some` of the entry (or the default) when
`data` is a dict, `none` when `data` is not a dict (models the
`AttributeError` raised by `.get` on a non-dict). -/
def pyGetD (v : PyVal) (k : String) (dflt : PyVal) : Option PyVal :=
  match v with
  | PyVal.dict d => some ((List.lookup k d).getD dflt)
  | _ => Option.none

/-- First key of `keys` present in dict `d`, returning its value — models
the `for key in [...]: if key in data: return ...` loop of
`_extract_text_fast`. -/
def lookupFirstKey (d : List (String × PyVal)) : List String → Option PyVal
  | [] => Option.none
  | k :: ks =>
    match List.lookup k d with
    | some v => some v
    | Option.none => lookupFirstKey d ks

/-- `OptimizedKCIAnalyzer._extract_text_fast` (src/KCI_collector.py lines
180–206): `None` → `""`; string → trimmed; dict → the `text` key, else the
first of `#text`/`content`/`value`, else recurse into a single non-excluded
child, else `""`; non-empty list → recurse on the head; empty list → `""`
(falsy, last line). -/
def kciExtract : PyVal → String
  | PyVal.none => ""
  | PyVal.str s => s |> pyStrip
  | PyVal.list [] => ""
  | PyVal.list (v :: _) => kciExtract v
  | PyVal.dict d =>
    match List.lookup "text" d with
    | some v => (pyStr v) |> pyStrip
    | Option.none =>
      match lookupFirstKey d ["#text", "content", "value"] with
      | some v => (pyStr v) |> pyStrip
      | Option.none =>
        match d with
        | [(k, v)] =>
          if k == "lang" || k == "type" || k == "id" then "" else kciExtract v
        | _ => ""

/-- `ImprovedRISSAnalyzer._extract_text` (src/RISS_collector.py lines
79–101): dict → the `text` key, else `#text`, else (non-empty dict) the
Python `str()` of the first value, trimmed, else `""`; string → trimmed;
non-empty list → recurse on head; `None` → `""`; empty list falls to the
final `else` branch, `str([]).strip() = "[]"`. -/
def rissExtract : PyVal → String
  | PyVal.dict d =>
    match List.lookup "text" d with
    | some v => (pyStr v) |> pyStrip
    | Option.none =>
      match List.lookup "#text" d with
      | some v => (pyStr v) |> pyStrip
      | Option.none =>
        match d with
        | [] => ""
        | (_, v) :: _ => (pyStr v) |> pyStrip
  | PyVal.str s => s |> pyStrip
  | PyVal.list (v :: _) => rissExtract v
  | PyVal.list [] => (pyStr (PyVal.list [])) |> pyStrip
  | PyVal.none => ""

/-- The walk over `path[:-1]` in `_extract_from_path` (src/KCI_collector.py
lines 236–240): step into `current[key]` while `current` is a dict holding
`key`; `none` models the early `return []`. -/
def walkSteps (cur : PyVal) : List String → Option PyVal
  | [] => some cur
  | k :: ks =>
    match cur with
    | PyVal.dict d =>
      match List.lookup k d with
      | some v => walkSteps v ks
      | Option.none => Option.none
    | _ => Option.none

/-- The final-key extraction of `_extract_from_path` (lines 245–258): a list
value contributes the non-empty flattened text of each element in order; a
single value contributes its flattened text when non-empty. -/
def finalExtract (kd : PyVal) : List String :=
  match kd with
  | PyVal.list items => (items.map kciExtract).filter (fun t => t ≠ "")
  | v => if kciExtract v = "" then [] else [kciExtract v]

/-- `OptimizedKCIAnalyzer._extract_from_path` (src/KCI_collector.py lines
232–258).  Returns `some` of the extracted list on normal return; `none`
models the `IndexError` that `path[-1]` raises when `path` is empty and the
walked current value is a dict (the `not isinstance(current, dict) or
path[-1] not in current` test short-circuits before indexing otherwise). -/
def extractFromPath (data : PyVal) (path : List String) : Option (List String) :=
  match walkSteps data path.dropLast with
  | Option.none => some []
  | some cur =>
    match cur with
    | PyVal.dict d =>
      match path.getLast? with
      | Option.none => Option.none
      | some last =>
        match List.lookup last d with
        | Option.none => some []
        | some kd => some (finalExtract kd)
    | _ => some []

/-- Python `"; ".join(...)`. -/
def joinSemi (l : List String) : String := String.intercalate "; " l

/-- `detail_info.get('outputData', \x7b\x7d).get('record', \x7b\x7d).get('articleInfo', \x7b\x7d)`
(src/KCI_collector.py lines 219 and 341); `none` models the
`AttributeError` raised when an intermediate value is not a dict. -/
def getChain3 (v : PyVal) (k1 k2 k3 : String) : Option PyVal := do
  let a ← pyGetD v k1 (PyVal.dict [])
  let b ← pyGetD a k2 (PyVal.dict [])
  pyGetD b k3 (PyVal.dict [])

/-- The `for source_data, path in keyword_sources` loop of
`_extract_keywords_optimized` (lines 225–230): first source whose path
extraction is non-empty wins, joined with `"; "`; otherwise `""`. -/
def firstKeywordHit : List (PyVal × List String) → Option String
  | [] => some ""
  | (src, path) :: rest => do
    let kws ← extractFromPath src path
    if kws.isEmpty then firstKeywordHit rest else some (joinSemi kws)

/-- `OptimizedKCIAnalyzer._extract_keywords_optimized` (src/KCI_collector.py
lines 208–230): four fixed paths over `article_info`, extended with two
detail-payload paths when a truthy `detail_info` is supplied. -/
def extractKeywordsOpt (articleInfo : PyVal) (detailInfo : Option PyVal) :
    Option String := do
  let base : List (PyVal × List String) :=
    [(articleInfo, ["keyword-group", "keyword"]),
     (articleInfo, ["kwd-group", "kwd"]),
     (articleInfo, ["keywords"]),
     (articleInfo, ["keyword"])]
  let sources ←
    match detailInfo with
    | Option.none => some base
    | some di =>
      if pyTruthy di then do
        let dai ← getChain3 di "outputData" "record" "articleInfo"
        some (base ++ [(dai, ["keyword-group", "keyword"]),
                       (dai, ["kwd-group", "kwd"])])
      else some base
  firstKeywordHit sources

/-- One candidate path of `_extract_abstract_optimized` (lines 274–287):
walk the whole path through dicts with an explicit `isinstance` check at
every step (so this walk never raises), then flatten-text the target. -/
def abstractCandidate (articleInfo : PyVal) (path : List String) : Option String :=
  match walkSteps articleInfo path with
  | Option.none => Option.none
  | some cur =>
    let txt := kciExtract cur
    if txt = "" then Option.none else some txt

/-- Helper: first candidate path yielding non-empty text. -/
def firstAbstractHit (articleInfo : PyVal) : List (List String) → String
  | [] => ""
  | p :: ps =>
    match abstractCandidate articleInfo p with
    | some txt => txt
    | Option.none => firstAbstractHit articleInfo ps

/-- `OptimizedKCIAnalyzer._extract_abstract_optimized` (src/KCI_collector.py
lines 260–287): non-dict input → `""`; otherwise the six candidate paths in
order, first non-empty text wins. -/
def extractAbstractOpt (articleInfo : PyVal) : String :=
  match articleInfo with
  | PyVal.dict _ =>
    firstAbstractHit articleInfo
      [["abstract"],
       ["abstract-group", "abstract"],
       ["abstract", "p"],
       ["abstract", "text"],
       ["abstract-group", "abstract", "p"],
       ["abstract-group", "abstract", "text"]]
  | _ => ""

/-- The `title_text` computation of `_extract_basic_info`
(src/KCI_collector.py lines 380–383): a list-valued `article-title` is
indexed at `[0]` (raising `IndexError` on an empty list, modelled by
`none`) and flattened; any other value is flattened directly. -/
def kciTitleText : PyVal → Option String
  | PyVal.list [] => Option.none
  | PyVal.list (x :: _) => some (kciExtract x)
  | v => some (kciExtract v)

/-- `article['title'] = title_text or '제목 없음'` (src/KCI_collector.py
line 385): a falsy (empty) title text falls back to the placeholder. -/
def titleFromArticleTitle (articleTitle : PyVal) : Option String :=
  (kciTitleText articleTitle).map (fun t => if t = "" then "제목 없음" else t)

/-- The title field of the record built by
`OptimizedKCIAnalyzer._extract_basic_info` (src/KCI_collector.py lines
371–385): `record.get('articleInfo', \x7b\x7d)`, then
`.get('title-group', \x7b\x7d)`, then `.get('article-title', \x7b\x7d)`,
then `titleFromArticleTitle`.  `none` models the `AttributeError` /
`IndexError` paths on which `_extract_basic_info` raises (and hence
produces no record at all). -/
def extractBasicTitle (record : PyVal) : Option String := do
  let articleInfo ← pyGetD record "articleInfo" (PyVal.dict [])
  let titleGroup ← pyGetD articleInfo "title-group" (PyVal.dict [])
  let articleTitle ← pyGetD titleGroup "article-title" (PyVal.dict [])
  titleFromArticleTitle articleTitle

/-- One flat Source B record as built by
`ImprovedRISSAnalyzer._extract_articles_from_response` (src/RISS_collector.py
lines 311–333). -/
structure RissArticle where
  title : String
  author : String
  publisher : String
  pub_year : String
  doc_type : String
  material_type : String
  url : String
  has_abstract : String
  has_toc : String
  has_image : String
  doc_type_name : String
deriving DecidableEq

/-- `record.get(key, '')` fed through `_extract_text` — the field pattern
used for every column of a Source B article. -/
def rissField (record : List (String × PyVal)) (key : String) : String :=
  rissExtract ((List.lookup key record).getD (PyVal.str ""))

/-- The fixed three-entry `doc_type_map` lookup (lines 325–333); unknown
codes pass through unchanged. -/
def docTypeName (code : String) : String :=
  if code = "T" then "학위논문"
  else if code = "A" then "국내학술논문"
  else if code = "F" then "해외학술논문"
  else code

/-- Build the article dict for one `metadata` record (lines 311–338).
`_extract_text` never returns Python `None`, so the `if article[key] is
None` normalization pass is a no-op and is not modelled further. -/
def mkRissArticle (record : List (String × PyVal)) : RissArticle :=
  { title := rissField record "riss.title"
    author := rissField record "riss.author"
    publisher := rissField record "riss.publisher"
    pub_year := rissField record "riss.pubdate"
    doc_type := rissField record "riss.type"
    material_type := rissField record "riss.mtype"
    url := rissField record "url"
    has_abstract := rissField record "riss.abstract"
    has_toc := rissField record "riss.toc"
    has_image := rissField record "riss.image"
    doc_type_name := docTypeName (rissField record "riss.type") }

/-- The per-record loop of `_extract_articles_from_response` (lines
309–346): each metadata record contributes its article iff the extracted
title is truthy (line 341 `if article['title']:`). -/
def extractArticles (metadata : List (List (String × PyVal))) : List RissArticle :=
  (metadata.filter (fun r => rissField r "riss.title" ≠ "")).map mkRissArticle

/-- A first-pass Source A article as mutated by the enrichment loop: only
the `keywords` and `abstract` entries of the article dict are ever read or
written there, so the remaining columns are kept abstract in `rest`. -/
structure KciArticle (α : Type) where
  keywords : String
  abstract : String
  rest : α
deriving DecidableEq

/-- One iteration of the detail-enrichment loop
(`extract_article_info_optimized`, src/KCI_collector.py lines 329–344) for
the pair `(i, aid)`.  Returns the updated article list and an abort flag:
`true` models an exception escaping to the `except` handler at line 350,
which stops all further processing but keeps the mutations already made.
A lookup miss (`article_id not in details`) leaves the list untouched. -/
def enrichStep {α : Type} (records : List PyVal)
    (details : List (String × PyVal)) (articles : List (KciArticle α))
    (i : Nat) (aid : String) : List (KciArticle α) × Bool :=
  match List.lookup aid details with
  | Option.none => (articles, false)
  | some detailInfo =>
    match records[i]?, articles[i]? with
    | some record, some art =>
      match pyGetD record "articleInfo" (PyVal.dict []) with
      | Option.none => (articles, true)
      | some ainfo =>
        match extractKeywordsOpt ainfo (some detailInfo) with
        | Option.none => (articles, true)
        | some ek =>
          let kwWrite := ek ≠ "" ∧ art.keywords = ""
          let art1 := if kwWrite then { art with keywords := ek } else art
          let arts1 := if kwWrite then articles.set i art1 else articles
          if art.abstract = "" then
            match getChain3 detailInfo "outputData" "record" "articleInfo" with
            | Option.none => (arts1, true)
            | some dai =>
              let ea := extractAbstractOpt dai
              if ea = "" then (arts1, false)
              else (arts1.set i { art1 with abstract := ea }, false)
          else (arts1, false)
    | _, _ => (articles, true)

/-- The whole enrichment loop over `article_ids_need_detail` (lines
329–344); an abort flag stops the remaining iterations, keeping the
mutations already applied. -/
def enrichLoop {α : Type} (records : List PyVal)
    (details : List (String × PyVal)) :
    List (Nat × String) → List (KciArticle α) → List (KciArticle α)
  | [], articles => articles
  | (i, aid) :: rest, articles =>
    match enrichStep records details articles i aid with
    | (arts, true) => arts
    | (arts, false) => enrichLoop records details rest arts

/-- ASCII lowercasing, as applied by Python `str.lower()` to the
ASCII/Korean strings this pipeline handles (Korean has no case). -/
def pyLowerChar (c : Char) : Char :=
  if 'A' ≤ c && c ≤ 'Z' then Char.ofNat (c.toNat + 32) else c

/-- Python `s.lower()`. -/
def pyLower (s : String) : String := String.mk (s.toList.map pyLowerChar)

/-- Scan for `re.sub(r"\s+", " ", t)`: `prevWs` records whether the
previous character was whitespace, so each maximal whitespace run emits
exactly one space. -/
def collapseWsGo (prevWs : Bool) : List Char → List Char
  | [] => []
  | c :: cs =>
    if isPyWs c then
      if prevWs then collapseWsGo true cs else ' ' :: collapseWsGo true cs
    else c :: collapseWsGo false cs

/-- `re.sub(r"\s+", " ", t)`: collapse every whitespace run to one space. -/
def collapseWs (l : List Char) : List Char := collapseWsGo false l

/-- Characters kept by `re.sub(r"[^0-9a-z가-힣 ]", "", t)`: ASCII digits,
lowercase ASCII letters, the Korean syllable block, and the space. -/
def titleKeyChar (c : Char) : Bool :=
  ('0' ≤ c && c ≤ '9') || ('a' ≤ c && c ≤ 'z') || ('가' ≤ c && c ≤ '힣') || c == ' '

/-- `normalize_title` (src/app.py lines 42–48): collapse whitespace runs,
strip, lowercase, then drop every character outside the allowed set.
(The non-string guard at line 43 is outside the embedding: titles are
strings here.) -/
def normalize_title (t : String) : String :=
  let collapsed := pyStrip (String.mk (collapseWs t.toList))
  let lowered := pyLower collapsed
  String.mk (lowered.toList.filter titleKeyChar)

/-- ASCII digit test (`\d` of the year regex, ASCII scope). -/
def isAsciiDigit (c : Char) : Bool := '0' ≤ c && c ≤ '9'

/-- Match `\d\d\d\d` at the head of the character list. -/
def matchFourDigits : List Char → Option (List Char)
  | c1 :: c2 :: c3 :: c4 :: _ =>
    if isAsciiDigit c1 && isAsciiDigit c2 && isAsciiDigit c3 && isAsciiDigit c4
    then some [c1, c2, c3, c4] else Option.none
  | _ => Option.none

/-- `re.search` semantics for `(\d{4})`: first position (left to right)
where four consecutive digits start. -/
def searchFourDigits : List Char → Option (List Char)
  | [] => Option.none
  | c :: rest =>
    match matchFourDigits (c :: rest) with
    | some y => some y
    | Option.none => searchFourDigits rest

/-- The year normalization of `merge_frames` (src/app.py line 122):
`.astype(str).str.extract(r"(\d{4})")` — the first 4-digit run, or the
empty string (pandas `NaN`, uniformly embedded as `""`) when none. -/
def extractYear4 (s : String) : String :=
  match searchFourDigits s.toList with
  | some y => String.mk y
  | Option.none => ""

/-- The eight columns of the Source A frame that survive the canonical
projection of `merge_frames` (src/app.py lines 68–90); the remaining
`_extract_basic_info` columns are dropped by the column selection and not
modelled. -/
structure KciRow where
  journal_name : String
  authors : String
  pub_year : String
  title : String
  url : String
  doi : String
  abstract : String
  keywords : String
deriving DecidableEq

/-- The Source B columns that survive the `keep` selection of
`merge_frames` (src/app.py lines 93–114); `has_abstract`/`has_toc`/
`has_image`/`doc_type_name` are dropped there and not modelled. -/
structure RissRow where
  title : String
  author : String
  publisher : String
  pub_year : String
  url : String
  doc_type : String
  material_type : String
deriving DecidableEq

/-- One row of the merged canonical frame (src/app.py line 110 `keep`
list).  A column absent from a source (pandas `NaN` after `concat`, or a
filled-in `""`) is uniformly embedded as `""`. -/
structure Record where
  title : String
  authors : String
  venue : String
  pub_year : String
  url : String
  doi : String
  abstract : String
  keywords : String
  source : String
  doc_type : String
  material_type : String
deriving DecidableEq

/-- Source A standardization (src/app.py lines 67–90): `source = "KCI"`,
`journal_name` renamed to `venue`; the canonical projection leaves no
`doc_type`/`material_type` columns (embedded as `""`). -/
def kciToRecord (r : KciRow) : Record :=
  { title := r.title, authors := r.authors, venue := r.journal_name
    pub_year := r.pub_year, url := r.url, doi := r.doi
    abstract := r.abstract, keywords := r.keywords
    source := "KCI", doc_type := "", material_type := "" }

/-- Source B standardization (src/app.py lines 93–114): `source = "RISS"`,
`author` renamed to `authors`, `publisher` to `venue`; the missing
`doi`/`abstract`/`keywords` columns are filled with `""`. -/
def rissToRecord (r : RissRow) : Record :=
  { title := r.title, authors := r.author, venue := r.publisher
    pub_year := r.pub_year, url := r.url, doi := "", abstract := ""
    keywords := "", source := "RISS", doc_type := r.doc_type
    material_type := r.material_type }

/-- Apply the year normalization to one record (src/app.py line 122). -/
def normYearRec (r : Record) : Record := { r with pub_year := extractYear4 r.pub_year }

/-- The scan behind `DataFrame.drop_duplicates(subset=[k], keep='first')`:
keep a record iff its key value has not been seen before (pandas keeps a
set of seen key values; `seen` is that set). -/
def dedupSeen {α : Type} (key : α → String) (seen : List String) :
    List α → List α
  | [] => []
  | x :: xs =>
    if seen.contains (key x) then dedupSeen key seen xs
    else x :: dedupSeen key (key x :: seen) xs

/-- `DataFrame.drop_duplicates(subset=[k], keep='first')`: keep the first
record of each key value (pandas also collapses missing values, so the
empty string deduplicates like any other value). -/
def dedupByKey {α : Type} (key : α → String) (l : List α) : List α :=
  dedupSeen key [] l

/-- The post-concatenation part of `merge_frames` (src/app.py lines
119–134): year normalization, dedup pass 1 on `doi`, dedup pass 2 on the
normalized title key. -/
def mergeCore (l : List Record) : List Record :=
  dedupByKey (fun r => normalize_title r.title)
    (dedupByKey (fun r => r.doi) (l.map normYearRec))

/-- `merge_frames(df_kci, df_riss)` (src/app.py lines 64–134), with each
source frame embedded at its own schema.  An empty frame contributes no
rows (the `df is not None and not df.empty` guards and the
empty-`frames` early return coincide with processing the empty list). -/
def merge_frames (kci : List KciRow) (riss : List RissRow) : List Record :=
  mergeCore (kci.map kciToRecord ++ riss.map rissToRecord)

/-- What the Source A standardization branch of `merge_frames` does to an
already-canonical frame passed as `df_kci` (the renames are no-ops, the
`source` column is overwritten with `"KCI"`, and the canonical projection
drops the `doc_type`/`material_type` columns). -/
def canonicalAsKci (r : Record) : Record :=
  { r with source := "KCI", doc_type := "", material_type := "" }

/-- `merge_frames(merged, empty)` where `merged` is a previous
`merge_frames` output passed back in as `df_kci` — the re-application the
spec's idempotence property quantifies over.  Python duck types the frame;
this is the same function instantiated at the canonical schema. -/
def remergeKci (merged : List Record) : List Record :=
  mergeCore (merged.map canonicalAsKci)

/-- One row of the `keyword_mapping.csv` table
(src/query_normalizer.py lines 41, 45). -/
structure MappingRow where
  user_pattern : String
  canonical_term : String
  category : String
  synonyms : String
  weight : String
deriving DecidableEq

/-- `charsPrefix p l`: `l` starts with `p`. -/
def charsPrefix : List Char → List Char → Bool
  | [], _ => true
  | _ :: _, [] => false
  | a :: as, b :: bs => a == b && charsPrefix as bs

/-- Helper for Python substring containment: does `p` occur at some
position of the haystack? -/
def containsAt (p : List Char) : List Char → Bool
  | [] => charsPrefix p []
  | b :: t => charsPrefix p (b :: t) || containsAt p t

/-- Python `needle in hay` on strings (substring containment; the empty
needle is contained in everything). -/
def pyIn (needle hay : String) : Bool := containsAt needle.toList hay.toList

/-- Python `s.split("|")`: split at every pipe, keeping empty pieces. -/
def splitPipeChars (acc : List Char) : List Char → List String
  | [] => [String.mk acc.reverse]
  | c :: cs =>
    if c == '|' then String.mk acc.reverse :: splitPipeChars [] cs
    else splitPipeChars (c :: acc) cs

/-- Python `s.split("|")`. -/
def splitPipe (s : String) : List String := splitPipeChars [] s.toList

/-- Insert into a sorted list (stable: placed before later equal keys). -/
def insertSorted {α : Type} (le : α → α → Bool) (x : α) : List α → List α
  | [] => [x]
  | y :: ys => if le x y then x :: y :: ys else y :: insertSorted le x ys

/-- Insertion sort — the embedding of Python's stable `sorted`. -/
def insSort {α : Type} (le : α → α → Bool) : List α → List α
  | [] => []
  | x :: xs => insertSorted le x (insSort le xs)

/-- Strict lexicographic comparison by code point on character lists. -/
def charsLt : List Char → List Char → Bool
  | [], [] => false
  | [], _ :: _ => true
  | _ :: _, [] => false
  | a :: as, b :: bs => decide (a < b) || (a == b && charsLt as bs)

/-- Lexicographic string order by code points (Python default string
`sorted`). -/
def strLeB (a b : String) : Bool := a == b || charsLt a.toList b.toList

/-- `key=lambda x: len(x)` order for the bundle sort. -/
def lenLeB (a b : String) : Bool := decide (a.length ≤ b.length)

namespace QueryNormalizer

/-- The terms one mapping row contributes in `map_with_csv`
(src/query_normalizer.py lines 63–76): skip falsy patterns; on a
substring match in either direction add the stripped canonical term (if
non-empty) and each stripped non-empty pipe-separated synonym. -/
def rowTerms (q : String) (row : MappingRow) : List String :=
  let pat := pyLower row.user_pattern
  if pat = "" then []
  else if pyIn pat q || pyIn q pat then
    (let canonical := pyStrip row.canonical_term
     if canonical ≠ "" then [canonical] else []) ++
    (let syns := pyStrip row.synonyms
     if syns ≠ "" then ((splitPipe syns).map pyStrip).filter (fun s => s ≠ "")
     else [])
  else []

/-- `QueryNormalizer.map_with_csv` (src/query_normalizer.py lines 57–77):
lowercased stripped query, row scan, then
`sorted(list(set([t for t in terms if t])))` — deduplicated and sorted
lexicographically. -/
def map_with_csv (mapping : List MappingRow) (query : String) : List String :=
  if mapping.isEmpty then []
  else
    let q := pyLower (pyStrip query)
    let terms := (mapping.map (rowTerms q)).flatten
    insSort strLeB ((terms.filter (fun t => t ≠ "")).dedup)

/-- The deduplicated candidate bundle of `QueryNormalizer.normalize`
(src/query_normalizer.py lines 114–116): `[query] + csv_terms + ai_terms`,
truthy entries only, deduplicated (Python `set`; its iteration order is
arbitrary and everything proved below is order-independent). -/
def bundleCandidates (mapping : List MappingRow) (aiTerms : List String)
    (query : String) : List String :=
  ((query :: (map_with_csv mapping query ++ aiTerms)).filter (fun t => t ≠ "")).dedup

/-- `QueryNormalizer.normalize` (src/query_normalizer.py lines 110–117):
the candidate bundle sorted by increasing length and truncated to 12.
`aiTerms` stands for the opaque `map_with_ai` result (`[]` when AI is
disabled or fails). -/
def normalize (mapping : List MappingRow) (aiTerms : List String)
    (query : String) : List String :=
  (insSort lenLeB (bundleCandidates mapping aiTerms query)).take 12

end QueryNormalizer

/-- A string contains a run of four consecutive ASCII digits (the
`re.search(r"\d{4}", s)` success condition). -/
def HasFourDigitRun (s : String) : Prop :=
  ∃ pre ds post, s.toList = pre ++ (ds ++ post) ∧ ds.length = 4 ∧
    ∀ c ∈ ds, isAsciiDigit c = true

/-- The C6 precondition "carries no direct scalar text and none of the
alternate scalar-holding keys": none of `text`, `#text`, `content`,
`value` is present. -/
def noScalarKeysB (d : List (String × PyVal)) : Bool :=
  (List.lookup "text" d).isNone && (List.lookup "#text" d).isNone &&
    (List.lookup "content" d).isNone && (List.lookup "value" d).isNone

/-- The excluded single-child names of `_extract_text_fast` (language tag,
type tag, identifier tag). -/
def excludedKeyB (k : String) : Bool := k == "lang" || k == "type" || k == "id"

/-- The frame relation the enrichment loop maintains per record: `rest`
(every field other than `keywords`/`abstract`) is untouched, and a
non-empty `keywords`/`abstract` value is never overwritten. -/
def ArticleEvolves {α : Type} (a o : KciArticle α) : Prop :=
  o.rest = a.rest ∧ (a.keywords ≠ "" → o.keywords = a.keywords) ∧
    (a.abstract ≠ "" → o.abstract = a.abstract)

/-- The per-iteration frame property: same length, every record evolves
per `ArticleEvolves`, and indices other than `i` are untouched. -/
def StepOk {α : Type} (articles out : List (KciArticle α)) (i : Nat) : Prop :=
  out.length = articles.length ∧
  (∀ (j : Nat) (a : KciArticle α), articles[j]? = some a →
    ∃ o, out[j]? = some o ∧ ArticleEvolves a o) ∧
  (∀ j : Nat, j ≠ i → out[j]? = articles[j]?)

-- ===== generic lemmas about the dedup scan =====

theorem contains_iff_mem (seen : List String) (s : String) :
    seen.contains s = true ↔ s ∈ seen := by
  simp [List.contains, List.elem_iff]

theorem dedupSeen_sublist {α : Type} (key : α → String) (seen : List String)
    (l : List α) : (dedupSeen key seen l).Sublist l := by
  induction l generalizing seen with
  | nil => simp [dedupSeen]
  | cons x xs ih =>
    simp only [dedupSeen]
    split
    · exact (ih seen).trans (List.sublist_cons_self x xs)
    · exact (ih (key x :: seen)).cons₂ x

theorem dedupSeen_pairwise_fresh {α : Type} (key : α → String)
    (seen : List String) (l : List α) :
    (dedupSeen key seen l).Pairwise (fun a b => key a ≠ key b) ∧
      ∀ y ∈ dedupSeen key seen l, key y ∉ seen := by
  induction l generalizing seen with
  | nil => simp [dedupSeen]
  | cons x xs ih =>
    simp only [dedupSeen]
    split
    · exact ih seen
    · rename_i hc
      have hxs : key x ∉ seen := fun hmem =>
        hc ((contains_iff_mem seen (key x)).mpr hmem)
      obtain ⟨hp, hf⟩ := ih (key x :: seen)
      refine ⟨List.Pairwise.cons (fun y hy => ?_) hp, ?_⟩
      · have := hf y hy
        simp only [List.mem_cons, not_or] at this
        exact fun hxy => this.1 hxy.symm
      · intro y hy
        rcases List.mem_cons.mp hy with rfl | hy'
        · exact hxs
        · have := hf y hy'
          simp only [List.mem_cons, not_or] at this
          exact this.2

theorem dedupSeen_eq_self {α : Type} (key : α → String) (seen : List String)
    (l : List α) (hfresh : ∀ y ∈ l, key y ∉ seen)
    (hp : l.Pairwise (fun a b => key a ≠ key b)) :
    dedupSeen key seen l = l := by
  induction l generalizing seen with
  | nil => simp [dedupSeen]
  | cons x xs ih =>
    rw [List.pairwise_cons] at hp
    simp only [dedupSeen]
    rw [if_neg (fun hc => (hfresh x (List.mem_cons_self x xs))
      ((contains_iff_mem seen (key x)).mp hc))]
    congr 1
    refine ih (key x :: seen) (fun y hy => ?_) hp.2
    simp only [List.mem_cons, not_or]
    exact ⟨fun he => hp.1 y hy he.symm, hfresh y (List.mem_cons_of_mem x hy)⟩

theorem dedupSeen_map {α : Type} (key : α → String) (f : α → α)
    (hk : ∀ a, key (f a) = key a) (seen : List String) (l : List α) :
    dedupSeen key seen (l.map f) = (dedupSeen key seen l).map f := by
  induction l generalizing seen with
  | nil => simp [dedupSeen]
  | cons x xs ih =>
    simp only [List.map_cons, dedupSeen, hk]
    split
    · exact ih seen
    · rw [List.map_cons]
      congr 1
      exact ih (key x :: seen)

theorem mem_dedupSeen {α : Type} (key : α → String) (seen : List String)
    (l : List α) (r : α) :
    r ∈ dedupSeen key seen l ↔
      r ∈ l ∧ key r ∉ seen ∧ l.find? (fun x => key x == key r) = some r := by
  induction l generalizing seen with
  | nil => simp [dedupSeen]
  | cons x xs ih =>
    simp only [dedupSeen]
    by_cases hc : key x ∈ seen
    · rw [if_pos ((contains_iff_mem seen (key x)).mpr hc), ih seen]
      constructor
      · rintro ⟨hmem, hfresh, hfind⟩
        refine ⟨List.mem_cons_of_mem x hmem, hfresh, ?_⟩
        rw [List.find?_cons_of_neg]
        · exact hfind
        · simp only [beq_iff_eq]
          exact fun he => hfresh (he ▸ hc)
      · rintro ⟨hmem, hfresh, hfind⟩
        have hne : key x ≠ key r := fun he => hfresh (he ▸ hc)
        rcases List.mem_cons.mp hmem with rfl | hmem'
        · exact absurd rfl hne
        · refine ⟨hmem', hfresh, ?_⟩
          rwa [List.find?_cons_of_neg _ (by simp [hne])] at hfind
    · rw [if_neg (fun hb => hc ((contains_iff_mem seen (key x)).mp hb))]
      by_cases hxr : key x = key r
      · constructor
        · intro hmem
          rcases List.mem_cons.mp hmem with rfl | hmem'
          · exact ⟨List.mem_cons_self _ _, hxr ▸ hc,
              List.find?_cons_of_pos _ (by simp [hxr])⟩
          · have := ((ih (key x :: seen)).mp hmem').2.1
            simp only [List.mem_cons, not_or] at this
            exact absurd hxr.symm this.1
        · rintro ⟨hmem, hfresh, hfind⟩
          rw [List.find?_cons_of_pos _ (by simp [hxr])] at hfind
          have : x = r := Option.some.inj hfind
          exact this ▸ List.mem_cons_self x _
      · rw [List.mem_cons, ih (key x :: seen)]
        constructor
        · rintro (rfl | ⟨hmem, hfresh, hfind⟩)
          · exact absurd rfl hxr
          · simp only [List.mem_cons, not_or] at hfresh
            exact ⟨List.mem_cons_of_mem x hmem, hfresh.2, by
              rw [List.find?_cons_of_neg _ (by simp [hxr])]; exact hfind⟩
        · rintro ⟨hmem, hfresh, hfind⟩
          rcases List.mem_cons.mp hmem with rfl | hmem'
          · exact absurd rfl hxr
          · right
            refine ⟨hmem', ?_, ?_⟩
            · simp only [List.mem_cons, not_or]
              exact ⟨fun he => hxr he.symm, hfresh⟩
            · rwa [List.find?_cons_of_neg _ (by simp [hxr])] at hfind

theorem countP_le_one_of_pairwise_ne {α : Type} (key : α → String) (c : String)
    (l : List α) (hp : l.Pairwise (fun a b => key a ≠ key b)) :
    l.countP (fun r => key r == c) ≤ 1 := by
  induction l with
  | nil => simp
  | cons x xs ih =>
    rw [List.pairwise_cons] at hp
    rw [List.countP_cons]
    by_cases hx : key x = c
    · have hz : xs.countP (fun r => key r == c) = 0 := by
        refine List.countP_eq_zero.mpr (fun a ha => ?_)
        simp only [beq_iff_eq]
        exact fun he => hp.1 a ha (hx.trans he.symm)
      simp [hz, hx]
    · simp only [beq_iff_eq, hx, if_false]
      exact Nat.le_trans (Nat.le_of_eq (Nat.add_zero _)) (ih hp.2)

-- ===== lemmas about the year extraction =====


theorem matchFourDigits_shape (l y : List Char)
    (h : matchFourDigits l = some y) :
    ∃ c1 c2 c3 c4 t, l = c1 :: c2 :: c3 :: c4 :: t ∧ y = [c1, c2, c3, c4] ∧
      isAsciiDigit c1 = true ∧ isAsciiDigit c2 = true ∧
      isAsciiDigit c3 = true ∧ isAsciiDigit c4 = true := by
  match l with
  | [] => simp [matchFourDigits] at h
  | [c1] => simp [matchFourDigits] at h
  | [c1, c2] => simp [matchFourDigits] at h
  | [c1, c2, c3] => simp [matchFourDigits] at h
  | c1 :: c2 :: c3 :: c4 :: t =>
    simp only [matchFourDigits] at h
    split at h
    · rename_i hd
      simp only [Bool.and_eq_true] at hd
      exact ⟨c1, c2, c3, c4, t, rfl, (Option.some.inj h).symm,
        hd.1.1.1, hd.1.1.2, hd.1.2, hd.2⟩
    · exact absurd h (by simp)

theorem searchFourDigits_shape (l y : List Char)
    (h : searchFourDigits l = some y) :
    ∃ c1 c2 c3 c4, y = [c1, c2, c3, c4] ∧
      isAsciiDigit c1 = true ∧ isAsciiDigit c2 = true ∧
      isAsciiDigit c3 = true ∧ isAsciiDigit c4 = true := by
  induction l with
  | nil => simp [searchFourDigits] at h
  | cons c rest ih =>
    simp only [searchFourDigits] at h
    cases hm : matchFourDigits (c :: rest) with
    | some z =>
      rw [hm] at h
      obtain ⟨c1, c2, c3, c4, t, _, hz, h1, h2, h3, h4⟩ :=
        matchFourDigits_shape _ _ hm
      exact ⟨c1, c2, c3, c4, (Option.some.inj h) ▸ hz, h1, h2, h3, h4⟩
    | none =>
      rw [hm] at h
      exact ih h

theorem searchFourDigits_run (l y : List Char)
    (h : searchFourDigits l = some y) :
    ∃ pre post, l = pre ++ (y ++ post) ∧ y.length = 4 ∧
      ∀ c ∈ y, isAsciiDigit c = true := by
  induction l with
  | nil => simp [searchFourDigits] at h
  | cons c rest ih =>
    simp only [searchFourDigits] at h
    cases hm : matchFourDigits (c :: rest) with
    | some z =>
      rw [hm] at h
      obtain ⟨c1, c2, c3, c4, t, hl, hz, h1, h2, h3, h4⟩ :=
        matchFourDigits_shape _ _ hm
      refine ⟨[], t, ?_, ?_, ?_⟩
      · rw [hl, List.nil_append]
        rw [← Option.some.inj h, hz]
        rfl
      · rw [← Option.some.inj h, hz]
        rfl
      · intro a ha
        rw [← Option.some.inj h, hz] at ha
        simp only [List.mem_cons, List.not_mem_nil, or_false] at ha
        rcases ha with rfl | rfl | rfl | rfl
        · exact h1
        · exact h2
        · exact h3
        · exact h4
    | none =>
      rw [hm] at h
      obtain ⟨pre, post, hl, hlen, hd⟩ := ih h
      exact ⟨c :: pre, post, by rw [hl]; rfl, hlen, hd⟩

theorem searchFourDigits_isSome_of_run (pre ds post : List Char)
    (hlen : ds.length = 4) (hd : ∀ c ∈ ds, isAsciiDigit c = true) :
    (searchFourDigits (pre ++ (ds ++ post))).isSome = true := by
  induction pre with
  | nil =>
    rcases ds with _ | ⟨a, _ | ⟨b, _ | ⟨c, _ | ⟨d, rest⟩⟩⟩⟩ <;>
      simp_all [List.length]
    have hrest : rest = [] := by
      have := hlen
      simpa using this
    subst hrest
    have ha := hd.1
    have hb := hd.2.1
    have hc := hd.2.2.1
    have hdd := hd.2.2.2
    simp [searchFourDigits, matchFourDigits, ha, hb, hc, hdd]
  | cons p ps ih =>
    simp only [List.cons_append, searchFourDigits]
    cases hm : matchFourDigits (p :: (ps ++ (ds ++ post))) with
    | some z => simp
    | none => exact ih

theorem extractYear4_idem (s : String) :
    extractYear4 (extractYear4 s) = extractYear4 s := by
  unfold extractYear4
  cases hs : searchFourDigits s.toList with
  | none => rfl
  | some y =>
    obtain ⟨c1, c2, c3, c4, rfl, h1, h2, h3, h4⟩ :=
      searchFourDigits_shape _ _ hs
    show (match searchFourDigits (String.mk [c1, c2, c3, c4]).toList with
      | some y => String.mk y
      | Option.none => "") = String.mk [c1, c2, c3, c4]
    have hy : (String.mk [c1, c2, c3, c4]).toList = [c1, c2, c3, c4] := rfl
    rw [hy]
    simp [searchFourDigits, matchFourDigits, h1, h2, h3, h4]

theorem extractYear4_eq_empty_of_no_run (s : String)
    (h : ¬ HasFourDigitRun s) : extractYear4 s = "" := by
  unfold extractYear4
  cases hs : searchFourDigits s.toList with
  | none => rfl
  | some y =>
    obtain ⟨pre, post, hl, hlen, hd⟩ := searchFourDigits_run _ _ hs
    exact absurd ⟨pre, y, post, hl, hlen, hd⟩ h

-- ===== lemmas about the merge engine =====

theorem normYearRec_idem (r : Record) :
    normYearRec (normYearRec r) = normYearRec r := by
  simp [normYearRec, extractYear4_idem]

theorem canonicalAsKci_doi (r : Record) : (canonicalAsKci r).doi = r.doi := rfl

theorem canonicalAsKci_title (r : Record) :
    (canonicalAsKci r).title = r.title := rfl

theorem normYearRec_canonicalAsKci (r : Record) :
    normYearRec (canonicalAsKci r) = canonicalAsKci (normYearRec r) := rfl

theorem mergeCore_mem_map (l : List Record) (r : Record)
    (h : r ∈ mergeCore l) : r ∈ l.map normYearRec := by
  unfold mergeCore dedupByKey at h
  exact (dedupSeen_sublist _ _ _).subset ((dedupSeen_sublist _ _ _).subset h)

theorem mergeCore_fixed (l : List Record) (r : Record) (h : r ∈ mergeCore l) :
    normYearRec r = r := by
  obtain ⟨r0, _, rfl⟩ := List.mem_map.mp (mergeCore_mem_map l r h)
  exact normYearRec_idem r0

theorem mergeCore_pairwise_doi (l : List Record) :
    (mergeCore l).Pairwise (fun a b => a.doi ≠ b.doi) := by
  unfold mergeCore dedupByKey
  exact List.Pairwise.sublist (dedupSeen_sublist _ _ _)
    (dedupSeen_pairwise_fresh (fun r : Record => r.doi) [] _).1

theorem mergeCore_pairwise_titleKey (l : List Record) :
    (mergeCore l).Pairwise
      (fun a b => normalize_title a.title ≠ normalize_title b.title) := by
  unfold mergeCore dedupByKey
  exact (dedupSeen_pairwise_fresh (fun r : Record => normalize_title r.title) [] _).1

theorem mergeCore_map_canonicalAsKci (l : List Record) :
    mergeCore ((mergeCore l).map canonicalAsKci) =
      (mergeCore l).map canonicalAsKci := by
  have hfix : ∀ r ∈ mergeCore l, normYearRec r = r := mergeCore_fixed l
  have h1 : ((mergeCore l).map canonicalAsKci).map normYearRec =
      (mergeCore l).map canonicalAsKci := by
    rw [List.map_map]
    conv_rhs => rw [← List.map_id ((mergeCore l).map canonicalAsKci),
      List.map_map]
    refine List.map_congr_left (fun r hr => ?_)
    show normYearRec (canonicalAsKci r) = canonicalAsKci r
    rw [normYearRec_canonicalAsKci, hfix r hr]
  show dedupByKey (fun r => normalize_title r.title)
      (dedupByKey (fun r => r.doi)
        (((mergeCore l).map canonicalAsKci).map normYearRec)) = _
  rw [h1]
  unfold dedupByKey
  rw [dedupSeen_map (fun r : Record => r.doi) canonicalAsKci (fun a => rfl) [],
    dedupSeen_eq_self (fun r : Record => r.doi) [] (mergeCore l) (by simp)
      (mergeCore_pairwise_doi l),
    dedupSeen_map (fun r : Record => normalize_title r.title) canonicalAsKci
      (fun a => rfl) [],
    dedupSeen_eq_self (fun r : Record => normalize_title r.title) [] (mergeCore l)
      (by simp) (mergeCore_pairwise_titleKey l)]

-- ===== claim C1 =====

/-- C1, counterexample: in the first dedup pass of the Merge & Dedup Engine
(`drop_duplicates(subset=["doi"])`, src/app.py line 127), a later record
whose `doi` is empty IS dropped when an earlier record also has an empty
`doi` — refuting "a record whose doi is empty is never dropped at this
pass".  The two records have distinct titles, and the merge-level conjunct
shows the second record is gone from the full `merge_frames` output (so it
was pass 1, not the title pass, that dropped it). -/
theorem claimC1_counterexample :
    dedupByKey (fun r : Record => r.doi)
      [⟨"Alpha", "", "", "", "", "", "", "", "KCI", "", ""⟩,
       ⟨"Beta", "", "", "", "", "", "", "", "RISS", "", ""⟩] =
      [⟨"Alpha", "", "", "", "", "", "", "", "KCI", "", ""⟩] ∧
    (⟨"Beta", "", "", "", "", "", "", "", "RISS", "", ""⟩ : Record).doi = "" ∧
    merge_frames []
      [⟨"Alpha", "a", "p", "2020", "u1", "T", "M"⟩,
       ⟨"Beta", "b", "q", "2021", "u2", "T", "M"⟩] =
      [⟨"Alpha", "a", "p", "2020", "u1", "", "", "", "RISS", "T", "M"⟩] := by
  decide

/-- C1 (amended): in the first dedup pass, a later record is dropped
whenever its `doi` — empty or not — duplicates an earlier-kept record's
`doi`; exactly the first record (by concatenation order) of each `doi`
value survives, characterized by `List.find?` on the doi key.  (The
original claim's exemption for empty identifiers does not hold: pandas
`drop_duplicates` collapses empty values like any other.) -/
theorem claimC1_theorem : ∀ (l : List Record),
    (dedupByKey (fun r : Record => r.doi) l).Sublist l ∧
    ∀ r : Record, r ∈ dedupByKey (fun r : Record => r.doi) l ↔
      r ∈ l ∧ l.find? (fun x => x.doi == r.doi) = some r := by
  intro l
  refine ⟨dedupSeen_sublist _ _ _, fun r => ?_⟩
  rw [show dedupByKey (fun r : Record => r.doi) l =
    dedupSeen (fun r : Record => r.doi) [] l from rfl, mem_dedupSeen]
  simp

-- ===== claim C2 =====

/-- C2: in every `merge_frames` output the `doi` values of surviving
records are pairwise distinct — including empty ones, so at most one
record with an empty `doi` survives the merge. -/
theorem claimC2_theorem : ∀ (kci : List KciRow) (riss : List RissRow),
    (merge_frames kci riss).Pairwise (fun a b => a.doi ≠ b.doi) ∧
    (merge_frames kci riss).countP (fun r => r.doi == "") ≤ 1 := by
  intro kci riss
  unfold merge_frames
  exact ⟨mergeCore_pairwise_doi _,
    countP_le_one_of_pairwise_ne (fun r : Record => r.doi) "" _
      (mergeCore_pairwise_doi _)⟩

-- ===== claim C3 =====

/-- C3, counterexample: `merge(merge(A,B), [])` is NOT equal to
`merge(A,B)` field-for-field — re-standardization overwrites every
surviving record's `source` with `"KCI"` (and clears the Source-B-only
`doc_type`/`material_type` columns), here on a one-record Source B
input. -/
theorem claimC3_counterexample :
    remergeKci (merge_frames [] [⟨"T", "a", "p", "2023", "u", "T", "M"⟩]) ≠
      merge_frames [] [⟨"T", "a", "p", "2023", "u", "T", "M"⟩] := by
  decide

/-- C3 (amended): re-merging a merged result with an empty second input
reproduces the same record set except that every record's `source` is
overwritten with the Source A tag `"KCI"` and the Source-B-only
`doc_type`/`material_type` fields are cleared; all other fields of every
record, the surviving set, and its order are unchanged (dedup and year
normalization are stable under re-application). -/
theorem claimC3_theorem : ∀ (kci : List KciRow) (riss : List RissRow),
    remergeKci (merge_frames kci riss) =
      (merge_frames kci riss).map canonicalAsKci := by
  intro kci riss
  unfold remergeKci merge_frames
  exact mergeCore_map_canonicalAsKci _

-- ===== claim C5 =====

/-- C5: the year normalization of the merge stage (src/app.py line 122)
extracts the first 4-digit run: `"2023년"`, `"2023.05"` and `"2023"` all
normalize to `"2023"`, and every `pub_year` value containing no 4-digit
run normalizes to the empty string rather than raising. -/
theorem claimC5_theorem :
    extractYear4 "2023년" = "2023" ∧ extractYear4 "2023.05" = "2023" ∧
    extractYear4 "2023" = "2023" ∧
    ∀ s : String, ¬ HasFourDigitRun s → extractYear4 s = "" :=
  ⟨by decide, by decide, by decide,
    fun s h => extractYear4_eq_empty_of_no_run s h⟩

/-- C5, witness: the hypothesis of the universal part holds at `"n/a"`
(no 4-digit run), and the theorem yields the empty string there. -/
theorem claimC5_witness : extractYear4 "n/a" = "" :=
  claimC5_theorem.2.2.2 "n/a" (fun h => by
    obtain ⟨pre, ds, post, hl, hlen, hd⟩ := h
    have hsome := searchFourDigits_isSome_of_run pre ds post hlen hd
    rw [← hl] at hsome
    have hnone : searchFourDigits "n/a".toList = Option.none := by decide
    rw [hnone] at hsome
    exact absurd hsome (by decide))

-- ===== lemmas about the insertion sort (query normalizer) =====

theorem insertSorted_perm {α : Type} (le : α → α → Bool) (x : α)
    (l : List α) : (insertSorted le x l).Perm (x :: l) := by
  induction l with
  | nil => exact List.Perm.refl _
  | cons y ys ih =>
    simp only [insertSorted]
    split
    · exact List.Perm.refl _
    · exact (ih.cons y).trans (List.Perm.swap x y ys)

theorem insSort_perm {α : Type} (le : α → α → Bool) (l : List α) :
    (insSort le l).Perm l := by
  induction l with
  | nil => exact List.Perm.refl _
  | cons x xs ih =>
    exact (insertSorted_perm le x (insSort le xs)).trans (ih.cons x)

theorem insertSorted_pairwise {α : Type} (le : α → α → Bool)
    (htrans : ∀ a b c, le a b = true → le b c = true → le a c = true)
    (htot : ∀ a b, le a b = false → le b a = true) (x : α) (l : List α)
    (hl : l.Pairwise (fun a b => le a b = true)) :
    (insertSorted le x l).Pairwise (fun a b => le a b = true) := by
  induction l with
  | nil => simp [insertSorted]
  | cons y ys ih =>
    rw [List.pairwise_cons] at hl
    simp only [insertSorted]
    cases hxy : le x y with
    | true =>
      simp only [if_pos rfl]
      refine List.Pairwise.cons ?_ (List.Pairwise.cons hl.1 hl.2)
      intro b hb
      rcases List.mem_cons.mp hb with rfl | hb'
      · exact hxy
      · exact htrans x y b hxy (hl.1 b hb')
    | false =>
      simp only [Bool.false_eq_true, if_false]
      refine List.Pairwise.cons ?_ (ih hl.2)
      intro b hb
      have hb2 := (insertSorted_perm le x ys).mem_iff.mp hb
      rcases List.mem_cons.mp hb2 with rfl | hb'
      · exact htot b y hxy
      · exact hl.1 b hb'

theorem insSort_pairwise {α : Type} (le : α → α → Bool)
    (htrans : ∀ a b c, le a b = true → le b c = true → le a c = true)
    (htot : ∀ a b, le a b = false → le b a = true) (l : List α) :
    (insSort le l).Pairwise (fun a b => le a b = true) := by
  induction l with
  | nil => simp [insSort]
  | cons x xs ih => exact insertSorted_pairwise le htrans htot x _ ih

theorem lenLeB_trans (a b c : String) (h1 : lenLeB a b = true)
    (h2 : lenLeB b c = true) : lenLeB a c = true := by
  simp only [lenLeB, decide_eq_true_eq] at h1 h2 ⊢
  exact Nat.le_trans h1 h2

theorem lenLeB_total (a b : String) (h : lenLeB a b = false) :
    lenLeB b a = true := by
  simp only [lenLeB, decide_eq_true_eq, decide_eq_false_iff_not] at h ⊢
  exact Nat.le_of_lt (Nat.lt_of_not_le h)

-- ===== claim C4 =====

/-- C4, counterexample: the original query string is NOT always contained
in the normalized bundle — with twelve distinct mapped terms all shorter
than the query, the length-sorted truncation `bundle[:12]`
(src/query_normalizer.py line 117) cuts the query off. -/
theorem claimC4_counterexample :
    ¬ ("verylongqueryterm" ∈ QueryNormalizer.normalize
      [⟨"verylongqueryterm", "a", "", "b|c|d|e|f|g|h|i|j|k|l", ""⟩] []
      "verylongqueryterm") := by
  decide

/-- C4 (amended): for every mapping table, AI term list and query, the
normalized bundle has at most 12 terms, no duplicates, and is sorted by
non-decreasing term length; it contains the original query string
whenever the query is non-empty AND the deduplicated truthy candidate
bundle (query + CSV terms + AI terms) has at most 12 elements — the
containment is not unconditional, since the `[:12]` truncation can drop
the query when 12 shorter candidates exist. -/
theorem claimC4_theorem : ∀ (mapping : List MappingRow)
    (aiTerms : List String) (query : String),
    (QueryNormalizer.normalize mapping aiTerms query).length ≤ 12 ∧
    (QueryNormalizer.normalize mapping aiTerms query).Nodup ∧
    (QueryNormalizer.normalize mapping aiTerms query).Pairwise
      (fun a b => a.length ≤ b.length) ∧
    (query ≠ "" →
      (QueryNormalizer.bundleCandidates mapping aiTerms query).length ≤ 12 →
      query ∈ QueryNormalizer.normalize mapping aiTerms query) := by
  intro mapping aiTerms query
  have hperm := insSort_perm lenLeB
    (QueryNormalizer.bundleCandidates mapping aiTerms query)
  refine ⟨?_, ?_, ?_, ?_⟩
  · unfold QueryNormalizer.normalize
    rw [List.length_take]
    exact Nat.min_le_left _ _
  · unfold QueryNormalizer.normalize
    refine List.Nodup.sublist (List.take_sublist _ _) ?_
    exact (hperm.nodup_iff).mpr (List.nodup_dedup _)
  · unfold QueryNormalizer.normalize
    refine List.Pairwise.sublist (List.take_sublist _ _) ?_
    have hp := insSort_pairwise lenLeB lenLeB_trans lenLeB_total
      (QueryNormalizer.bundleCandidates mapping aiTerms query)
    refine hp.imp ?_
    intro a b h
    simpa [lenLeB] using h
  · intro hq hlen
    unfold QueryNormalizer.normalize
    have hmem : query ∈ QueryNormalizer.bundleCandidates mapping aiTerms query := by
      unfold QueryNormalizer.bundleCandidates
      rw [List.mem_dedup, List.mem_filter]
      exact ⟨List.mem_cons_self _ _, by simpa using hq⟩
    have hmem2 : query ∈ insSort lenLeB
        (QueryNormalizer.bundleCandidates mapping aiTerms query) :=
      hperm.mem_iff.mpr hmem
    rw [List.take_of_length_le (by rw [hperm.length_eq]; exact hlen)]
    exact hmem2

/-- C4, witness: for the empty mapping and no AI terms, the query `"abc"`
is non-empty, the candidate bundle is small, and the theorem places the
query in the normalized bundle. -/
theorem claimC4_witness :
    "abc" ∈ QueryNormalizer.normalize [] [] "abc" :=
  (claimC4_theorem [] [] "abc").2.2.2 (by decide) (by decide)

-- ===== claim C6 =====



/-- C6, counterexample: on the node `\x7b'lang': 'ko'\x7d` — no scalar
keys, single child with an excluded name — the Source A flattener returns
`""` as claimed, but the Source B flattener returns `"ko"` (the Python
`str()` of the first dict value), refuting the claim for the Source B
implementation. -/
theorem claimC6_counterexample :
    noScalarKeysB [("lang", PyVal.str "ko")] = true ∧
    excludedKeyB "lang" = true ∧
    kciExtract (PyVal.dict [("lang", PyVal.str "ko")]) = "" ∧
    rissExtract (PyVal.dict [("lang", PyVal.str "ko")]) = "ko" ∧
    "ko" ≠ "" := by
  decide

/-- C6 (amended): for every tree node carrying no direct scalar text and
none of the alternate scalar-holding keys, with more than one child or a
single child whose name is excluded, the Source A flattener
(`_extract_text_fast`) returns `""`; the Source B flattener
(`_extract_text`) instead returns the trimmed Python string rendering of
the node's first entry value (it returns `""` only for an empty node). -/
theorem claimC6_theorem : ∀ (k : String) (v : PyVal)
    (rest : List (String × PyVal)),
    noScalarKeysB ((k, v) :: rest) = true →
    (rest ≠ [] ∨ excludedKeyB k = true) →
    kciExtract (PyVal.dict ((k, v) :: rest)) = "" ∧
    rissExtract (PyVal.dict ((k, v) :: rest)) = pyStrip (pyStr v) := by
  intro k v rest hns hcond
  simp only [noScalarKeysB, Bool.and_eq_true, Option.isNone_iff_eq_none] at hns
  obtain ⟨⟨⟨ht, hht⟩, hct⟩, hvt⟩ := hns
  have hfk : lookupFirstKey ((k, v) :: rest) ["#text", "content", "value"] =
      Option.none := by
    simp [lookupFirstKey, hht, hct, hvt]
  constructor
  · show kciExtract (PyVal.dict ((k, v) :: rest)) = ""
    cases rest with
    | nil =>
      rcases hcond with hcond | hcond
      · exact absurd rfl hcond
      · have hk : (k == "lang" || k == "type" || k == "id") = true := hcond
        rw [kciExtract, ht, hfk]
        simp [hk]
    | cons p ps =>
      rw [kciExtract, ht, hfk]
      intro k1 v1 h
      simp at h
  · show rissExtract (PyVal.dict ((k, v) :: rest)) = pyStrip (pyStr v)
    rw [rissExtract, ht, hht]

/-- C6, witness: on a two-entry node with no scalar keys, the Source A
flattener returns the empty string while the Source B flattener returns
the trimmed rendering of the first value. -/
theorem claimC6_witness :
    kciExtract (PyVal.dict [("a", PyVal.str "1"), ("b", PyVal.str "2")]) = "" ∧
    rissExtract (PyVal.dict [("a", PyVal.str "1"), ("b", PyVal.str "2")]) =
      pyStrip (pyStr (PyVal.str "1")) :=
  claimC6_theorem "a" (PyVal.str "1") [("b", PyVal.str "2")] (by decide)
    (Or.inl (List.cons_ne_nil _ _))

-- ===== claim C7 =====

/-- C7, counterexample: on the empty path with a dict input,
`_extract_from_path` evaluates `path[-1]` and raises `IndexError`
(embedded as `none`) instead of returning an empty sequence — refuting
"for every input tree and every path ... never raises". -/
theorem claimC7_counterexample :
    extractFromPath (PyVal.dict []) [] = Option.none := by
  decide

/-- C7 (amended): for every input tree and every NON-EMPTY path, path
extraction is total — it returns a sequence (never raises) — and whenever
the walk over the leading path steps fails (a step is absent from the
current map, or the current value is not a map), the returned sequence is
empty. -/
theorem claimC7_theorem : ∀ (data : PyVal) (path : List String),
    path ≠ [] →
    extractFromPath data path ≠ Option.none ∧
    (walkSteps data path.dropLast = Option.none →
      extractFromPath data path = some []) := by
  intro data path hp
  unfold extractFromPath
  cases hw : walkSteps data path.dropLast with
  | none => exact ⟨by simp, fun _ => rfl⟩
  | some cur =>
    refine ⟨?_, fun hcontra => Option.noConfusion hcontra⟩
    cases cur with
    | dict d =>
      cases hl : path.getLast? with
      | none =>
        have := List.getLast?_isSome.mpr hp
        rw [hl] at this
        cases this
      | some last =>
        show ¬ (match List.lookup last d with
          | Option.none => some []
          | some kd => some (finalExtract kd)) = Option.none
        split <;> simp
    | str s => simp
    | none => simp
    | list l => simp

/-- C7, witness: a path whose first step is absent from the input map
yields `some []` (the empty sequence, no exception). -/
theorem claimC7_witness :
    extractFromPath (PyVal.dict [("a", PyVal.str "x")]) ["missing", "k"] ≠
      Option.none ∧
    extractFromPath (PyVal.dict [("a", PyVal.str "x")]) ["missing", "k"] =
      some [] := by
  have h := claimC7_theorem (PyVal.dict [("a", PyVal.str "x")])
    ["missing", "k"] (by decide)
  exact ⟨h.1, h.2 rfl⟩

-- ===== claim C8 =====

/-- C8: for every Source A record, (i) the title produced by the
normalizer (`_extract_basic_info`) is never the raw empty string; (ii) a
list-valued title field is resolved using only its first element (the
tail is irrelevant); (iii) whenever the extracted title text is empty,
the title becomes the placeholder `"제목 없음"`. -/
theorem claimC8_theorem :
    (∀ (record : PyVal) (t : String),
      extractBasicTitle record = some t → t ≠ "") ∧
    (∀ (x : PyVal) (rest : List PyVal),
      kciTitleText (PyVal.list (x :: rest)) = some (kciExtract x)) ∧
    (∀ (v : PyVal) (t : String), kciTitleText v = some t → t = "" →
      titleFromArticleTitle v = some "제목 없음") := by
  refine ⟨?_, fun x rest => rfl, ?_⟩
  · intro record t h
    unfold extractBasicTitle at h
    simp only [Option.bind_eq_bind, Option.bind_eq_some] at h
    obtain ⟨ai, h1, tg, h2, at1, h3, h4⟩ := h
    unfold titleFromArticleTitle at h4
    rw [Option.map_eq_some'] at h4
    obtain ⟨txt, h5, h6⟩ := h4
    by_cases he : txt = ""
    · rw [← h6, he, if_pos rfl]
      decide
    · rw [← h6, if_neg he]
      exact he
  · intro v t h he
    unfold titleFromArticleTitle
    rw [h, he]
    rfl

/-- C8, witness: a record whose title group is missing entirely gets the
placeholder title, which is non-empty. -/
theorem claimC8_witness :
    extractBasicTitle (PyVal.dict [("articleInfo", PyVal.dict [])]) =
      some "제목 없음" ∧ ("제목 없음" : String) ≠ "" := by
  have h1 : extractBasicTitle (PyVal.dict [("articleInfo", PyVal.dict [])]) =
      some "제목 없음" := by decide
  exact ⟨h1, claimC8_theorem.1 (PyVal.dict [("articleInfo", PyVal.dict [])])
    "제목 없음" h1⟩

-- ===== claim C9 =====

/-- C9: a Source B metadata record appears in the normalizer's output iff
its extracted title (`_extract_text(record.get('riss.title', ''))`) is
non-empty — records with an empty extracted title, and only those, are
silently dropped (src/RISS_collector.py lines 340–342). -/
theorem claimC9_theorem : ∀ (metadata : List (List (String × PyVal)))
    (r : List (String × PyVal)), r ∈ metadata →
    (rissField r "riss.title" ≠ "" ↔ mkRissArticle r ∈ extractArticles metadata) := by
  intro metadata r hr
  constructor
  · intro ht
    unfold extractArticles
    exact List.mem_map_of_mem mkRissArticle
      (List.mem_filter.mpr ⟨hr, by simpa using ht⟩)
  · intro hmem
    unfold extractArticles at hmem
    obtain ⟨r2, hr2, heq⟩ := List.mem_map.mp hmem
    have ht2 : rissField r2 "riss.title" ≠ "" := by
      simpa using (List.mem_filter.mp hr2).2
    have : (mkRissArticle r).title = (mkRissArticle r2).title := by rw [heq]
    show rissField r "riss.title" ≠ ""
    rw [show rissField r "riss.title" = (mkRissArticle r).title from rfl, this]
    exact ht2

/-- C9, witness: a two-record metadata list in which the empty-titled
record is dropped and the non-empty-titled one is kept. -/
theorem claimC9_witness :
    (mkRissArticle [("riss.title", PyVal.str "T1")] ∈
      extractArticles [[("riss.title", PyVal.str "T1")], [("riss.author", PyVal.str "A")]]) ∧
    ¬ (rissField [("riss.author", PyVal.str "A")] "riss.title" ≠ "") := by
  constructor
  · exact (claimC9_theorem
      [[("riss.title", PyVal.str "T1")], [("riss.author", PyVal.str "A")]]
      [("riss.title", PyVal.str "T1")]
      (List.mem_cons_self _ _)).mp (by decide)
  · decide

-- ===== lemmas for the enrichment stage =====


theorem evolves_refl {α : Type} (a : KciArticle α) : ArticleEvolves a a :=
  ⟨rfl, fun _ => rfl, fun _ => rfl⟩

theorem evolves_trans {α : Type} {a b c : KciArticle α}
    (h1 : ArticleEvolves a b) (h2 : ArticleEvolves b c) :
    ArticleEvolves a c := by
  obtain ⟨r1, k1, ab1⟩ := h1
  obtain ⟨r2, k2, ab2⟩ := h2
  refine ⟨r2.trans r1, fun hk => ?_, fun ha => ?_⟩
  · rw [k2 (by rw [k1 hk]; exact hk), k1 hk]
  · rw [ab2 (by rw [ab1 ha]; exact ha), ab1 ha]

theorem set_evolves_spec {α : Type} (articles : List (KciArticle α))
    (i : Nat) (art o : KciArticle α) (ha : articles[i]? = some art)
    (hev : ArticleEvolves art o) :
    (articles.set i o).length = articles.length ∧
    (∀ (j : Nat) (a : KciArticle α), articles[j]? = some a →
      ∃ o2, (articles.set i o)[j]? = some o2 ∧ ArticleEvolves a o2) ∧
    (∀ j : Nat, j ≠ i → (articles.set i o)[j]? = articles[j]?) := by
  have hlt : i < articles.length := (List.getElem?_eq_some.mp ha).1
  refine ⟨List.length_set _ _ _, ?_,
    fun j hj => List.getElem?_set_ne (fun he => hj he.symm)⟩
  intro j a hja
  by_cases hji : j = i
  · subst hji
    have : art = a := Option.some.inj ((ha.symm.trans hja))
    exact ⟨o, List.getElem?_set_self hlt, this ▸ hev⟩
  · exact ⟨a, by rw [List.getElem?_set_ne (fun he => hji he.symm)]; exact hja,
      evolves_refl a⟩

theorem id_evolves_spec {α : Type} (articles : List (KciArticle α)) (i : Nat) :
    articles.length = articles.length ∧
    (∀ (j : Nat) (a : KciArticle α), articles[j]? = some a →
      ∃ o2, articles[j]? = some o2 ∧ ArticleEvolves a o2) ∧
    (∀ j : Nat, j ≠ i → articles[j]? = articles[j]?) :=
  ⟨rfl, fun _ a ha => ⟨a, ha, evolves_refl a⟩, fun _ _ => rfl⟩


theorem StepOk_id {α : Type} (articles : List (KciArticle α)) (i : Nat) :
    StepOk articles articles i :=
  ⟨rfl, fun _ a ha => ⟨a, ha, evolves_refl a⟩, fun _ _ => rfl⟩

theorem StepOk_set {α : Type} (articles : List (KciArticle α)) (i : Nat)
    (art o : KciArticle α) (ha : articles[i]? = some art)
    (hev : ArticleEvolves art o) : StepOk articles (articles.set i o) i := by
  obtain ⟨h1, h2, h3⟩ := set_evolves_spec articles i art o ha hev
  exact ⟨h1, h2, h3⟩

theorem enrichStep_spec {α : Type} (records : List PyVal)
    (details : List (String × PyVal)) (articles : List (KciArticle α))
    (i : Nat) (aid : String) :
    StepOk articles (enrichStep records details articles i aid).1 i ∧
    (List.lookup aid details = Option.none →
      (enrichStep records details articles i aid).1 = articles) := by
  unfold enrichStep
  split
  · exact ⟨StepOk_id articles i, fun _ => rfl⟩
  · rename_i detailInfo hd
    have hne : List.lookup aid details = Option.none → False := fun h => by
      rw [hd] at h; exact Option.noConfusion h
    split
    · rename_i record art hr hai
      split
      · exact ⟨StepOk_id articles i, fun _ => rfl⟩
      · rename_i ainfo hgi
        split
        · exact ⟨StepOk_id articles i, fun _ => rfl⟩
        · rename_i ek hek
          by_cases hkw : ek ≠ "" ∧ art.keywords = ""
          · have hkwe : (ek ≠ "" ∧ art.keywords = "") = True := eq_true hkw
            simp only [hkwe, if_true]
            split
            · rename_i habs
              split
              · exact ⟨StepOk_set articles i art _ hai
                  ⟨rfl, fun hk => absurd hkw.2 hk, fun _ => rfl⟩,
                  fun h => (hne h).elim⟩
              · rename_i dai hdai
                split
                · exact ⟨StepOk_set articles i art _ hai
                    ⟨rfl, fun hk => absurd hkw.2 hk, fun _ => rfl⟩,
                    fun h => (hne h).elim⟩
                · rw [List.set_set]
                  exact ⟨StepOk_set articles i art _ hai
                    ⟨rfl, fun hk => absurd hkw.2 hk, fun hab => absurd habs hab⟩,
                    fun h => (hne h).elim⟩
            · exact ⟨StepOk_set articles i art _ hai
                ⟨rfl, fun hk => absurd hkw.2 hk, fun _ => rfl⟩,
                fun h => (hne h).elim⟩
          · have hkwe : (ek ≠ "" ∧ art.keywords = "") = False := eq_false hkw
            simp only [hkwe, if_false]
            split
            · rename_i habs
              split
              · exact ⟨StepOk_id articles i, fun _ => rfl⟩
              · rename_i dai hdai
                split
                · exact ⟨StepOk_id articles i, fun _ => rfl⟩
                · exact ⟨StepOk_set articles i art _ hai
                    ⟨rfl, fun _ => rfl, fun hab => absurd habs hab⟩,
                    fun h => (hne h).elim⟩
            · exact ⟨StepOk_id articles i, fun _ => rfl⟩
    · exact ⟨StepOk_id articles i, fun _ => rfl⟩

theorem enrichLoop_spec {α : Type} (records : List PyVal)
    (details : List (String × PyVal)) :
    ∀ (pairs : List (Nat × String)) (articles : List (KciArticle α)),
    (enrichLoop records details pairs articles).length = articles.length ∧
    (∀ (j : Nat) (a : KciArticle α), articles[j]? = some a →
      ∃ o, (enrichLoop records details pairs articles)[j]? = some o ∧
        ArticleEvolves a o) ∧
    (∀ j : Nat,
      (∀ aid, (j, aid) ∈ pairs → List.lookup aid details = Option.none) →
      (enrichLoop records details pairs articles)[j]? = articles[j]?) := by
  intro pairs
  induction pairs with
  | nil =>
    intro articles
    exact ⟨rfl, fun _ a ha => ⟨a, ha, evolves_refl a⟩, fun _ _ => rfl⟩
  | cons p rest ih =>
    intro articles
    obtain ⟨i, aid⟩ := p
    obtain ⟨⟨hlen, hev, hframe⟩, hmiss⟩ :=
      enrichStep_spec records details articles i aid
    cases hstep : enrichStep records details articles i aid with
    | mk arts ab =>
      rw [hstep] at hlen hev hframe hmiss
      dsimp only at hlen hev hframe hmiss
      cases ab with
      | true =>
        have hloop : enrichLoop records details ((i, aid) :: rest) articles =
            arts := by
          rw [enrichLoop, hstep]
        rw [hloop]
        refine ⟨hlen, hev, fun j hj => ?_⟩
        by_cases hji : j = i
        · subst hji
          rw [hmiss (hj aid (List.mem_cons_self _ _))]
        · exact hframe j hji
      | false =>
        have hloop : enrichLoop records details ((i, aid) :: rest) articles =
            enrichLoop records details rest arts := by
          rw [enrichLoop, hstep]
        rw [hloop]
        obtain ⟨ihlen, ihev, ihmiss⟩ := ih arts
        refine ⟨ihlen.trans hlen, fun j a ha => ?_, fun j hj => ?_⟩
        · obtain ⟨o1, ho1, hev1⟩ := hev j a ha
          obtain ⟨o2, ho2, hev2⟩ := ihev j o1 ho1
          exact ⟨o2, ho2, evolves_trans hev1 hev2⟩
        · have h1 : arts[j]? = articles[j]? := by
            by_cases hji : j = i
            · subst hji
              rw [hmiss (hj aid (List.mem_cons_self _ _))]
            · exact hframe j hji
          rw [ihmiss j (fun aid' hm => hj aid' (List.mem_cons_of_mem _ hm)), h1]

-- ===== claim C10 =====

/-- C10: the Detail Enrichment loop (src/KCI_collector.py lines 329–344)
(i) preserves the number of records; (ii) for every record, leaves all
fields other than `keywords`/`abstract` unchanged, and never overwrites a
`keywords` or `abstract` value that was non-empty at write time; and
(iii) leaves a record entirely unchanged when every detail lookup for its
index failed (its identifier is absent from the fetched `details` map). -/
theorem claimC10_theorem : ∀ (α : Type) (records : List PyVal)
    (details : List (String × PyVal)) (pairs : List (Nat × String))
    (articles : List (KciArticle α)),
    (enrichLoop records details pairs articles).length = articles.length ∧
    (∀ (j : Nat) (a o : KciArticle α), articles[j]? = some a →
      (enrichLoop records details pairs articles)[j]? = some o →
      o.rest = a.rest ∧ (a.keywords ≠ "" → o.keywords = a.keywords) ∧
      (a.abstract ≠ "" → o.abstract = a.abstract)) ∧
    (∀ j : Nat,
      (∀ aid, (j, aid) ∈ pairs → List.lookup aid details = Option.none) →
      (enrichLoop records details pairs articles)[j]? = articles[j]?) := by
  intro α records details pairs articles
  obtain ⟨h1, h2, h3⟩ := enrichLoop_spec records details pairs articles
  refine ⟨h1, ?_, h3⟩
  intro j a o ha ho
  obtain ⟨o2, ho2, hev⟩ := h2 j a ha
  have he : o2 = o := Option.some.inj (ho2.symm.trans ho)
  exact he ▸ hev

/-- C10, witness: with an empty details map, the single article keeps its
exact pre-enrichment value (the failed lookup leaves it untouched). -/
theorem claimC10_witness :
    (enrichLoop [] [] [(0, "x")] [⟨"k0", "a0", ()⟩])[0]? =
      some (⟨"k0", "a0", ()⟩ : KciArticle Unit) := by
  have h := (claimC10_theorem Unit [] [] [(0, "x")] [⟨"k0", "a0", ()⟩]).2.2 0
    (fun aid hm => by
      simp only [List.mem_singleton, Prod.mk.injEq] at hm
      rw [hm.2]
      rfl)
  rw [h]
  rfl
